import Mathlib

/-!
Verification of the IRS bulletin scraper (`scraper.py`) against its
natural-language specification.  The Python source is shallowly embedded:
pure fragments become Lean functions, the filesystem and the network are
explicit environment records, bytes are natural numbers, machine floats
are modelled as exact rationals (sizes produced by `round(x, 2)` are
carried as integer hundredths), and code that catches exceptions is
modelled with `Except` values that are handled at the catch site.
-/

namespace IRSScraper

/-! ## Numeric values and Python rendering

`file_size_mb` in a result dictionary is either the Python int `0`
(failed downloads) or the float produced by `round(size_mb, 2)`.  The
latter is an exact multiple of 1/100; we carry it as its integer number
of hundredths.  `csv.DictWriter` writes `str(value)` into the cell;
Python renders an int with no decimal point and renders such a float
with its shortest decimal form, which has one or two fractional digits.
-/

inductive SizeVal where
  | intVal (n : Int)
  | floatHundredths (k : Int)
deriving DecidableEq, Repr

/-- Rational value denoted by a `SizeVal`. -/
def sizeValQ : SizeVal → ℚ
  | .intVal n => (n : ℚ)
  | .floatHundredths k => (k : ℚ) / 100

/-- Decimal digits of a natural number, most significant first (fuel-based
structural recursion; `natDigitsGo (n+1) n` fully evaluates `n`). -/
def natDigitsGo : Nat → Nat → List Nat
  | 0, _ => []
  | fuel + 1, n => if n < 10 then [n] else natDigitsGo fuel (n / 10) ++ [n % 10]

def natDigits (n : Nat) : List Nat := natDigitsGo (n + 1) n

def digitChar (d : Nat) : Char := Char.ofNat (48 + d)

/-- Decimal rendering of a natural number (model of Python `str` on a
nonnegative int). -/
def natStr (n : Nat) : String := String.mk ((natDigits n).map digitChar)

/-- Model of Python `str` on an int. -/
def intStr (n : Int) : String :=
  (if n < 0 then "-" else "") ++ natStr n.natAbs

/-- Fractional digits (as characters) of the float `k/100` under Python
`str`: `"0"` when the value is integral, one digit when it is a multiple
of 1/10, two digits otherwise. -/
def fracChars (r : Nat) : List Char :=
  if r = 0 then ['0']
  else if r % 10 = 0 then (natDigits (r / 10)).map digitChar
  else if r < 10 then '0' :: (natDigits r).map digitChar
  else (natDigits r).map digitChar

/-- Model of Python `str` on the float `k/100` (`k` hundredths). -/
def floatStr (k : Int) : String :=
  (if k < 0 then "-" else "") ++ natStr (k.natAbs / 100)
    ++ "." ++ String.mk (fracChars (k.natAbs % 100))

/-- Cell written by `csv.DictWriter` for a `file_size_mb` value. -/
def renderSize : SizeVal → String
  | .intVal n => intStr n
  | .floatHundredths k => floatStr k

/-- Number of characters after the first decimal point of a rendered
cell (0 when there is no decimal point). -/
def fracLen : List Char → Nat
  | [] => 0
  | c :: cs => if c = '.' then cs.length else fracLen cs

/-- Model of Python `round(q, 2)`: the value in hundredths.  (Exact
half-way ties, which Python resolves on the binary float, are rounded
half-up here; no claim depends on tie behaviour.) -/
def round2 (q : ℚ) : Int := round (q * 100)

/-- Model of `get_file_size_mb`: `st_size / (1024 * 1024)` as an exact
rational. -/
def get_file_size_mb (bytes : Nat) : ℚ := (bytes : ℚ) / (1024 * 1024)

/-! ## PDF validity heuristic (`_is_valid_pdf_flexible`)

A stored file is a byte string, modelled as `List Nat`.  The function
reads the first 1024 bytes and applies the checks of the source in
order; the `try/except` wrapper is irrelevant here because the model has
no failing I/O.
-/

/-- Byte string of the ASCII signature "%PDF". -/
def pdfSig : List Nat := [37, 80, 68, 70]

/-- Byte string of the ASCII marker "PDF". -/
def pdfMarker : List Nat := [80, 68, 70]

/-- Byte string of the ASCII PostScript signature "%!PS". -/
def psSig : List Nat := [37, 33, 80, 83]

/-- Model of Python `pat in hay` on bytes: contiguous-substring test. -/
def containsSub (pat : List Nat) : List Nat → Bool
  | [] => pat.isPrefixOf []
  | b :: bs => pat.isPrefixOf (b :: bs) || containsSub pat bs

/-- Model of `_is_valid_pdf_flexible`: `content` is the file's bytes. -/
def is_valid_pdf_flexible (content : List Nat) : Bool :=
  if content.length = 0 then false
  else
    let header := content.take 1024
    if pdfSig.isPrefixOf header then true
    else if containsSub pdfMarker (header.take 100) then true
    else if psSig.isPrefixOf header then true
    else if content.length < 1024 then false
    else true

/-! ## HTTP fetch with retries (`make_request`)

The network is an oracle `att : Nat → GetResult` giving, for each
attempt index, the outcome of `requests.get`: an exception or a response
with a status code.  The embedding returns the index of the returned
successful attempt (`none` when all attempts fail), the list of backoff
sleep durations performed, and the number of GET attempts issued. -/

inductive GetResult where
  | exn
  | resp (status : Nat)
deriving DecidableEq, Repr

/-- Loop body of `make_request`: `fuel` is the number of attempts still
allowed (`max_retries - i`), `i` the current attempt index.  A sleep of
`2 ^ i` happens after a failed attempt except after the final one
(`fuel = 1`). -/
def makeRequestGo (att : Nat → GetResult) : Nat → Nat → Option Nat × List Nat × Nat
  | 0, _ => (none, [], 0)
  | fuel + 1, i =>
    if att i = .resp 200 then (some i, [], 1)
    else
      let rest := makeRequestGo att fuel (i + 1)
      (rest.1, (if 0 < fuel then [2 ^ i] else []) ++ rest.2.1, rest.2.2 + 1)

/-- Model of `make_request` with `maxRetries` attempts. -/
def make_request (att : Nat → GetResult) (maxRetries : Nat) :
    Option Nat × List Nat × Nat :=
  makeRequestGo att maxRetries 0

/-! ## Crawl (`get_document_links`)

One fetched listing page is abstracted to the data the loop body reads
from it: the pattern-matching links extracted by BeautifulSoup, in
document order (as `(filename, url)` pairs), and the result of
`_has_next_page` on its markup.  The site is an oracle
`pages : Nat → Option Page`; `none` models a page whose fetch fails
after all retries.  `self.max_pages` (`float("inf")` by default, here
any finite bound) limits the loop. -/

structure Page where
  links : List (String × String)
  hasNext : Bool
deriving DecidableEq, Repr

/-- Inner `for link in soup.find_all(...)` loop: append each link whose
filename is not already in the accumulator; the returned flag is
`links_found` (true iff at least one link was appended). -/
def addLinksF (acc : List (String × String)) :
    List (String × String) → List (String × String) × Bool
  | [] => (acc, false)
  | l :: ls =>
    if acc.any (fun p => p.1 = l.1) then addLinksF acc ls
    else ((addLinksF (acc ++ [l]) ls).1, true)

/-- Specification-side helper: the sublist of `ls` keeping the first
occurrence of each filename not already in `seen`, in order. -/
def firstNews (seen : List String) : List (String × String) → List (String × String)
  | [] => []
  | l :: ls =>
    if l.1 ∈ seen then firstNews seen ls
    else l :: firstNews (l.1 :: seen) ls

/-- Page loop of `get_document_links`.  `fuel` is the number of page
indices below `max_pages` still available.  Returns the collected links
and the list of page indices actually fetched (each index for which
`make_request` was issued, successful or not). -/
def crawlGo (pages : Nat → Option Page) :
    Nat → Nat → List (String × String) → List (String × String) × List Nat
  | 0, _, acc => (acc, [])
  | fuel + 1, pageNum, acc =>
    match pages pageNum with
    | none => (acc, [pageNum])
    | some pg =>
      let r := addLinksF acc pg.links
      if r.2 = false then (r.1, [pageNum])
      else if pg.hasNext = false then (r.1, [pageNum])
      else
        let rest := crawlGo pages fuel (pageNum + 1) r.1
        (rest.1, pageNum :: rest.2)

/-- Model of `get_document_links`: crawl from page 0 with an empty
accumulator. -/
def get_document_links (pages : Nat → Option Page) (maxPages : Nat) :
    List (String × String) :=
  (crawlGo pages maxPages 0 []).1

/-! ## Ledger (`get_existing_files` / `create_csv_summary`)

The CSV file is modelled as its list of data rows (the fixed header is
kept in `CSVFile.header`); every cell is the string `csv` wrote, so row
equality is byte-for-byte file equality under the deterministic `csv`
formatting.  A missing file (and a file whose open fails, which the
source also degrades to an empty mapping) is `none`.  Python dicts are
modelled as association lists with in-place overwrite (`upsert`), which
preserves the semantics needed here: key set and key-to-value mapping. -/

structure Row where
  file_name : String
  file_size_mb : String
  download_timestamp : String
  status : String
deriving DecidableEq, Inhabited, Repr

/-- Result dictionary of one download, before CSV serialization. -/
structure Outcome where
  file_name : String
  file_size_mb : SizeVal
  download_timestamp : String
  status : String
deriving DecidableEq, Repr

/-- Cells `csv.DictWriter` writes for an outcome dictionary. -/
def renderOutcome (o : Outcome) : Row :=
  { file_name := o.file_name
    file_size_mb := renderSize o.file_size_mb
    download_timestamp := o.download_timestamp
    status := o.status }

def CSV_FIELDNAMES : List String :=
  ["file_name", "file_size_mb", "download_timestamp", "status"]

/-- Python dict assignment `m[k] = v` on an association list. -/
def upsert : List (String × Row) → String → Row → List (String × Row)
  | [], k, v => [(k, v)]
  | p :: m, k, v => if p.1 = k then (k, v) :: m else p :: upsert m k v

/-- Python dict lookup `m[k]` (as an `Option`). -/
def alookup : List (String × Row) → String → Option Row
  | [], _ => none
  | p :: m, k => if p.1 = k then some p.2 else alookup m k

/-- Invariant of the ledger mapping: every stored row is keyed by its
own `file_name` cell. -/
def rowKeyed (m : List (String × Row)) : Prop := ∀ p ∈ m, p.2.file_name = p.1

/-- Model of `get_existing_files`: `{}` when the file is missing, else
the rows read by `csv.DictReader`, keyed by their `file_name` cell. -/
def get_existing_files (file : Option (List Row)) : List (String × Row) :=
  match file with
  | none => []
  | some rows => rows.foldl (fun m r => upsert m r.file_name r) []

/-- Update loop of `create_csv_summary`:
`for result in download_results: existing_files[result["file_name"]] = result`. -/
def mergeOutcomes (m : List (String × Row)) (results : List Outcome) :
    List (String × Row) :=
  results.foldl (fun m r => upsert m r.file_name (renderOutcome r)) m

/-- Model of Python `sorted(existing_files.keys())`. -/
def sortedKeys (m : List (String × Row)) : List String :=
  List.insertionSort (fun a b => a ≤ b) (m.map Prod.fst)

structure CSVFile where
  header : List String
  rows : List Row
deriving DecidableEq, Repr

/-- Model of `create_csv_summary`: merge the persisted mapping with the
new outcomes and write the full mapping back, header first, rows in
ascending filename order. -/
def create_csv_summary (file : Option (List Row)) (results : List Outcome) :
    CSVFile :=
  let merged := mergeOutcomes (get_existing_files file) results
  { header := CSV_FIELDNAMES
    rows := (sortedKeys merged).map (fun k => (alookup merged k).getD default) }

/-- Specification-side lookup: the row the merged mapping should hold
for `k` — the rendering of the last new outcome named `k`, else the
prior persisted record for `k`. -/
def lastOutcomeRow (results : List Outcome) (k : String) : Option Row :=
  results.foldl
    (fun a r => if r.file_name = k then some (renderOutcome r) else a) none

def mergedSpec (file : Option (List Row)) (results : List Outcome)
    (k : String) : Option Row :=
  match lastOutcomeRow results k with
  | some v => some v
  | none => alookup (get_existing_files file) k

/-! ## Download of one bulletin (`download_bulletin`)

The environment of one call carries the pre-existing file content at the
target path (if any), the fetch result (`none` when `make_request`
returned `None`, else the streamed chunks), which chunk write raises (if
any), and the value `datetime.now().isoformat()` returns.  The function
is total: every exception of the source is caught inside it. -/

structure DlEnv where
  bulletinName : String
  existing : Option (List Nat)
  fetch : Option (List (List Nat))
  writeFailsAt : Option Nat
  now : String
deriving DecidableEq, Repr

/-- Streaming write loop: concatenates the chunks written before the
failing one is reached; `.error` models the raised write exception. -/
def writeChunksGo (failAt : Option Nat) :
    List (List Nat) → Nat → Except Unit (List Nat)
  | [], _ => .ok []
  | c :: cs, i =>
    if failAt = some i then .error ()
    else (writeChunksGo failAt cs (i + 1)).map (c ++ ·)

def writeChunks (chunks : List (List Nat)) (failAt : Option Nat) :
    Except Unit (List Nat) :=
  writeChunksGo failAt chunks 0

/-- Model of `process_document` on a fully written file. -/
def process_document (name : String) (content : List Nat) (now : String) :
    Outcome :=
  { file_name := name
    file_size_mb := .floatHundredths (round2 (get_file_size_mb content.length))
    download_timestamp := now
    status := "downloaded" }

/-- Model of `download_bulletin`: returns the outcome dictionary and the
content stored at the target path afterwards (`none` when absent). -/
def download_bulletin (env : DlEnv) : Outcome × Option (List Nat) :=
  match env.existing with
  | some content =>
    ({ file_name := env.bulletinName
       file_size_mb := .floatHundredths (round2 (get_file_size_mb content.length))
       download_timestamp := "existing"
       status := "skipped" }, some content)
  | none =>
    match env.fetch with
    | none =>
      ({ file_name := env.bulletinName
         file_size_mb := .intVal 0
         download_timestamp := env.now
         status := "failed" }, none)
    | some chunks =>
      match writeChunks chunks env.writeFailsAt with
      | .error _ =>
        ({ file_name := env.bulletinName
           file_size_mb := .intVal 0
           download_timestamp := env.now
           status := "failed" }, none)
      | .ok content => (process_document env.bulletinName content env.now, some content)

/-- A batch of downloads: one environment per link, one outcome per
link.  (The thread pool shares no mutable state between workers, since
the links are pre-deduplicated by filename.) -/
def downloadBatch (envs : List DlEnv) : List (Outcome × Option (List Nat)) :=
  envs.map download_bulletin

/-! ## Validation and cleanup (`validate_pdf_files` / `cleanup_invalid_files`)

The stored directory is a list of `(filename, bytes)` pairs (the `*.pdf`
files); `deleteFails name = true` means `Path.unlink` raises for that
file. -/

/-- Per-file body of `validate_pdf_files`: explicit empty-file check,
then the flexible signature check. -/
def validateOne (content : List Nat) : Bool :=
  if content.length = 0 then false else is_valid_pdf_flexible content

/-- Model of `validate_pdf_files`: filename-to-validity results. -/
def validate_pdf_files (files : List (String × List Nat)) :
    List (String × Bool) :=
  files.map (fun p => (p.1, validateOne p.2))

/-- The invalid-file list computed by `cleanup_invalid_files`. -/
def invalidNames (files : List (String × List Nat)) : List String :=
  ((validate_pdf_files files).filter (fun p => p.2 = false)).map Prod.fst

/-- Deletion loop: each `unlink` removes the file unless it raises, and
a raise is caught so the loop continues with the remaining files. -/
def deleteLoop (deleteFails : String → Bool) (invalid : List String)
    (files : List (String × List Nat)) : List (String × List Nat) :=
  invalid.foldl
    (fun fs name =>
      if deleteFails name then fs else fs.filter (fun p => p.1 ≠ name))
    files

/-- Model of `cleanup_invalid_files`: returns the list the function
returns and the directory contents afterwards. -/
def cleanup_invalid_files (files : List (String × List Nat))
    (deleteFails : String → Bool) (dryRun : Bool) :
    List String × List (String × List Nat) :=
  let invalid := invalidNames files
  if dryRun then (invalid, files)
  else (invalid, deleteLoop deleteFails invalid files)

/-! ## Remote listing with a limit (`get_remote_bulletins` /
`check_for_new_bulletins`)

`limit` is Python `Optional[int]`; `if limit:` is falsy for both `None`
and `0`. -/

def pyTruthy : Option Int → Bool
  | none => false
  | some n => n != 0

/-- Python slice `l[:n]`, including the negative-stop case. -/
def pySliceTo (l : List (String × String)) (n : Int) : List (String × String) :=
  if 0 ≤ n then l.take n.toNat else l.take (l.length - (-n).toNat)

/-- Model of `get_remote_bulletins`: for a truthy small limit, crawl
with a reduced page cap `max(1, limit // 20 + 1)`; then truncate to the
limit prefix when the limit is truthy. -/
def get_remote_bulletins (pages : Nat → Option Page) (maxPages : Nat)
    (limit : Option Int) : List (String × String) :=
  let all :=
    if pyTruthy limit = true ∧ limit.getD 0 ≤ 50 then
      get_document_links pages (max 1 ((limit.getD 0).fdiv 20 + 1)).toNat
    else get_document_links pages maxPages
  if pyTruthy limit = true then pySliceTo all (limit.getD 0) else all

structure CheckResults where
  total_remote_checked : Nat
  total_local : Nat
  new_bulletins_count : Nat
  new_bulletins : List (String × String)
deriving DecidableEq, Repr

/-- Model of `check_for_new_bulletins` (`localBulletins` is the local
known-set computed by `get_local_bulletins`). -/
def check_for_new_bulletins (pages : Nat → Option Page) (maxPages : Nat)
    (localBulletins : List String) (limit : Option Int) : CheckResults :=
  let remote := get_remote_bulletins pages maxPages limit
  let news := remote.filter (fun p => !localBulletins.contains p.1)
  { total_remote_checked := remote.length
    total_local := localBulletins.length
    new_bulletins_count := news.length
    new_bulletins := news }

/-! ## Concrete inputs used by witnesses and counterexamples -/

/-- Attempt oracle whose third configured attempt is the first success. -/
def attW : Nat → GetResult := fun i => if i = 1 then .resp 200 else .exn

def pageW1 : Page :=
  { links := [("irb2020-01.pdf", "https://www.irs.gov/pub/irs-irbs/irb2020-01.pdf"),
              ("irb2020-02.pdf", "https://www.irs.gov/pub/irs-irbs/irb2020-02.pdf")]
    hasNext := true }

/-- A page repeating a link of `pageW1`, with a Next control present. -/
def pageW2 : Page :=
  { links := [("irb2020-01.pdf", "https://www.irs.gov/pub/irs-irbs/irb2020-01.pdf")]
    hasNext := true }

def sitW : Nat → Option Page := fun n => if n = 0 then some pageW1 else some pageW2

def accW : List (String × String) := [("irb2020-01.pdf", "u1")]

def lsW : List (String × String) := [("irb2020-01.pdf", "v1"), ("irb2020-02.pdf", "v2")]

def accW2 : List (String × String) :=
  [("irb2020-01.pdf", "https://www.irs.gov/pub/irs-irbs/irb2020-01.pdf"),
   ("irb2020-02.pdf", "https://www.irs.gov/pub/irs-irbs/irb2020-02.pdf")]

/-- Download environment whose fetch fails after all retries. -/
def envFailW : DlEnv :=
  { bulletinName := "irb2020-01.pdf", existing := none, fetch := none
    writeFailsAt := none, now := "2026-01-01T00:00:00" }

/-- Download environment whose second chunk write raises. -/
def envWriteW : DlEnv :=
  { bulletinName := "irb2020-02.pdf", existing := none, fetch := some [[1, 2], [3]]
    writeFailsAt := some 1, now := "2026-01-01T00:00:00" }

/-- A directory holding one empty (hence invalid) stored file. -/
def filesW : List (String × List Nat) := [("a.pdf", [])]

/-- Deletion behaviour in which every unlink raises. -/
def dfW : String → Bool := fun _ => true

/-! ## Lemmas about the PDF validity heuristic -/

theorem containsSub_iff (pat : List Nat) (hay : List Nat) :
    containsSub pat hay = true ↔ pat <:+: hay := by
  induction hay with
  | nil => simp [containsSub]
  | cons b bs ih => simp [containsSub, ih, List.infix_cons_iff]

/-- C5: the validity classifier marks the empty file invalid; a nonempty
file is valid exactly when its first kilobyte starts with the "%PDF"
signature, or the literal "PDF" occurs in its first 100 bytes, or it
starts with the PostScript "%!PS" signature, or (permissive fallback)
the file size is at least 1KB. -/
theorem c5_validity_classification (content : List Nat) :
    is_valid_pdf_flexible content = true ↔
      content ≠ [] ∧
        (pdfSig <+: content.take 1024 ∨ pdfMarker <:+: content.take 100 ∨
          psSig <+: content.take 1024 ∨ 1024 ≤ content.length) := by
  have htake : (content.take 1024).take 100 = content.take 100 := by
    rw [List.take_take]
    norm_num
  simp only [is_valid_pdf_flexible]
  split_ifs with h0 h1 h2 h3 h4
  · have : content = [] := List.length_eq_zero.mp h0
    subst this; simp
  · have hne : content ≠ [] := fun h => h0 (by simp [h])
    simp [hne, List.isPrefixOf_iff_prefix.mp h1]
  · have hne : content ≠ [] := fun h => h0 (by simp [h])
    rw [htake] at h2
    simp [hne, (containsSub_iff _ _).mp h2]
  · have hne : content ≠ [] := fun h => h0 (by simp [h])
    simp [hne, List.isPrefixOf_iff_prefix.mp h3]
  · simp only [Bool.false_eq_true, false_iff]
    rintro ⟨-, hc⟩
    rcases hc with hc | hc | hc | hc
    · exact h1 (List.isPrefixOf_iff_prefix.mpr hc)
    · exact h2 (by rw [htake]; exact (containsSub_iff _ _).mpr hc)
    · exact h3 (List.isPrefixOf_iff_prefix.mpr hc)
    · omega
  · have hne : content ≠ [] := fun h => h0 (by simp [h])
    simp [hne]
    right; right; right; omega

/-! ## Lemmas about `make_request` -/

theorem makeRequestGo_success (att : Nat → GetResult) :
    ∀ (fuel i j : Nat), i ≤ j → j < i + fuel → att j = .resp 200 →
      (∀ l, i ≤ l → l < j → att l ≠ .resp 200) →
      makeRequestGo att fuel i =
        (some j, (List.range' i (j - i)).map (fun l => 2 ^ l), j - i + 1) := by
  intro fuel
  induction fuel with
  | zero => intro i j hij hlt _ _; omega
  | succ f ih =>
    intro i j hij hlt h200 hmin
    by_cases hji : j = i
    · subst hji
      simp [makeRequestGo, h200]
    · have hij' : i < j := lt_of_le_of_ne hij (fun h => hji h.symm)
      have hni : att i ≠ .resp 200 := hmin i le_rfl hij'
      have hrest := ih (i + 1) j (by omega) (by omega) h200
        (fun l hl1 hl2 => hmin l (by omega) hl2)
      have hf : 0 < f := by omega
      have hsplit : j - i = (j - (i + 1)) + 1 := by omega
      have hsleep : [2 ^ i] ++ (List.range' (i + 1) (j - (i + 1))).map (fun l => 2 ^ l)
          = (List.range' i (j - i)).map (fun l => 2 ^ l) := by
        rw [hsplit, List.range'_succ]
        simp
      have hcount : j - (i + 1) + 1 + 1 = j - i + 1 := by omega
      simp only [makeRequestGo, if_neg hni, hrest, if_pos hf, hsleep, hcount]

theorem makeRequestGo_fail (att : Nat → GetResult) :
    ∀ (fuel i : Nat), (∀ l, i ≤ l → l < i + fuel → att l ≠ .resp 200) →
      makeRequestGo att fuel i =
        (none, (List.range' i (fuel - 1)).map (fun l => 2 ^ l), fuel) := by
  intro fuel
  induction fuel with
  | zero => intro i _; simp [makeRequestGo]
  | succ f ih =>
    intro i hmin
    have hni : att i ≠ .resp 200 := hmin i le_rfl (by omega)
    rcases Nat.eq_zero_or_pos f with hf | hf
    · subst hf
      simp [makeRequestGo, hni]
    · have hrest := ih (i + 1) (fun l hl1 hl2 => hmin l (by omega) (by omega))
      have hsplit : f = (f - 1) + 1 := by omega
      have hsleep : [2 ^ i] ++ (List.range' (i + 1) (f - 1)).map (fun l => 2 ^ l)
          = (List.range' i f).map (fun l => 2 ^ l) := by
        conv_rhs => rw [hsplit]
        rw [List.range'_succ]
        simp
      simp only [makeRequestGo, if_neg hni, hrest, if_pos hf, Nat.add_sub_cancel, hsleep]

/-- C2: with at least one attempt allowed, `make_request` issues at most
`max_retries` GET attempts; the first attempt with a 200 response is
returned immediately (after exactly one backoff sleep of `2 ^ l` seconds
per earlier failed attempt `l`, and no sleep after the success); and
when every attempt fails it sleeps after each failed attempt except the
final one and returns the failure value `none` instead of raising. -/
theorem c2_make_request_retry_contract (att : Nat → GetResult) (m : Nat)
    (hm : 1 ≤ m) :
    (make_request att m).2.2 ≤ m ∧
    (∀ j, j < m → att j = .resp 200 → (∀ l, l < j → att l ≠ .resp 200) →
      make_request att m = (some j, (List.range j).map (fun l => 2 ^ l), j + 1)) ∧
    ((∀ l, l < m → att l ≠ .resp 200) →
      make_request att m = (none, (List.range (m - 1)).map (fun l => 2 ^ l), m)) := by
  refine ⟨?_, ?_, ?_⟩
  · by_cases hex : ∃ j, j < m ∧ att j = .resp 200
    · have hP : ∃ j, (fun j => j < m ∧ att j = .resp 200) j := hex
      set j := Nat.find hP with hj
      obtain ⟨hjm, hj200⟩ := Nat.find_spec hP
      have hmin : ∀ l, 0 ≤ l → l < j → att l ≠ .resp 200 := by
        intro l _ hl hcon
        exact (Nat.find_min hP hl) ⟨lt_trans hl hjm, hcon⟩
      have := makeRequestGo_success att m 0 j (Nat.zero_le j)
        (by omega) hj200 hmin
      unfold make_request
      rw [this]
      show j - 0 + 1 ≤ m
      omega
    · push_neg at hex
      have := makeRequestGo_fail att m 0
        (fun l _ hl => hex l (by omega))
      unfold make_request
      rw [this]
  · intro j hjm hj200 hmin
    have := makeRequestGo_success att m 0 j (Nat.zero_le j) (by omega) hj200
      (fun l _ hl => hmin l hl)
    unfold make_request
    rw [this]
    simp [List.range_eq_range']
  · intro hall
    have := makeRequestGo_fail att m 0 (fun l _ hl => hall l (by omega))
    unfold make_request
    rw [this]
    simp [List.range_eq_range']

/-- Witness: on an oracle failing once then succeeding, three allowed
attempts return the second attempt after a single 1-second sleep. -/
theorem c2_make_request_retry_contract_witness :
    (1 ≤ 3 ∧ make_request attW 3 = (some 1, [1], 2)) := by
  refine ⟨by norm_num, ?_⟩
  have h := (c2_make_request_retry_contract attW 3 (by norm_num)).2.1 1
    (by norm_num) (by decide) (by intro l hl; interval_cases l; decide)
  rw [h]
  decide

/-! ## Lemmas about the crawl -/

theorem firstNews_congr (ls : List (String × String)) :
    ∀ s₁ s₂ : List String, (∀ x, x ∈ s₁ ↔ x ∈ s₂) →
      firstNews s₁ ls = firstNews s₂ ls := by
  induction ls with
  | nil => intro s₁ s₂ _; rfl
  | cons l ls ih =>
    intro s₁ s₂ h
    by_cases hm : l.1 ∈ s₁
    · simp only [firstNews, if_pos hm, if_pos ((h l.1).mp hm)]
      exact ih s₁ s₂ h
    · simp only [firstNews, if_neg hm, if_neg (fun hc => hm ((h l.1).mpr hc))]
      rw [ih (l.1 :: s₁) (l.1 :: s₂) (by intro x; simp [h x])]

theorem addLinksF_fst (ls : List (String × String)) :
    ∀ acc : List (String × String),
      (addLinksF acc ls).1 = acc ++ firstNews (acc.map Prod.fst) ls := by
  induction ls with
  | nil => intro acc; simp [addLinksF, firstNews]
  | cons l ls ih =>
    intro acc
    by_cases hd : l.1 ∈ acc.map Prod.fst
    · have hany : acc.any (fun p => p.1 = l.1) = true := by
        rcases List.mem_map.mp hd with ⟨p, hp, hpe⟩
        exact List.any_eq_true.mpr ⟨p, hp, by simp [hpe]⟩
      simp only [addLinksF, if_pos hany, firstNews, if_pos hd]
      exact ih acc
    · have hany : acc.any (fun p => p.1 = l.1) = false := by
        rw [Bool.eq_false_iff]
        intro hc
        rcases List.any_eq_true.mp hc with ⟨p, hp, hpe⟩
        exact hd (List.mem_map.mpr ⟨p, hp, by simpa using hpe⟩)
      simp only [addLinksF, Bool.not_eq_true, hany, Bool.false_eq_true, if_false,
        firstNews, if_neg hd]
      rw [ih (acc ++ [l])]
      rw [List.append_assoc]
      congr 1
      show l :: firstNews ((acc ++ [l]).map Prod.fst) ls = _
      congr 1
      apply firstNews_congr
      intro x
      simp [or_comm]

theorem firstNews_nodup_fresh (ls : List (String × String)) :
    ∀ seen : List String,
      ((firstNews seen ls).map Prod.fst).Nodup ∧
        ∀ x ∈ (firstNews seen ls).map Prod.fst, x ∉ seen := by
  induction ls with
  | nil => intro seen; simp [firstNews]
  | cons l ls ih =>
    intro seen
    by_cases hm : l.1 ∈ seen
    · simpa only [firstNews, if_pos hm] using ih seen
    · obtain ⟨ihnd, ihfresh⟩ := ih (l.1 :: seen)
      simp only [firstNews, if_neg hm, List.map_cons]
      constructor
      · refine List.nodup_cons.mpr ⟨?_, ihnd⟩
        intro hc
        exact ihfresh _ hc (List.mem_cons_self _ _)
      · intro x hx
        rcases List.mem_cons.mp hx with hx | hx
        · exact hx ▸ hm
        · exact fun hc => ihfresh x hx (List.mem_cons_of_mem _ hc)

theorem addLinksF_nodup {acc : List (String × String)}
    (h : (acc.map Prod.fst).Nodup) (ls : List (String × String)) :
    ((addLinksF acc ls).1.map Prod.fst).Nodup := by
  rw [addLinksF_fst, List.map_append]
  obtain ⟨hnd, hfresh⟩ := firstNews_nodup_fresh ls (acc.map Prod.fst)
  refine List.nodup_append.mpr ⟨h, hnd, ?_⟩
  intro a ha hc
  exact hfresh a hc ha

/-- The flag of `addLinksF` is `links_found`: when it is false the
accumulator is unchanged. -/
theorem addLinksF_flag_false (ls : List (String × String)) :
    ∀ acc : List (String × String),
      (addLinksF acc ls).2 = false → (addLinksF acc ls).1 = acc := by
  induction ls with
  | nil => intro acc _; rfl
  | cons l ls ih =>
    intro acc hf
    by_cases hd : acc.any (fun p => p.1 = l.1)
    · simp only [addLinksF, if_pos hd] at hf ⊢
      exact ih acc hf
    · simp only [addLinksF, Bool.not_eq_true] at hd
      simp only [addLinksF, hd, Bool.false_eq_true, if_false] at hf
      exact absurd hf (by decide)

theorem crawlGo_nodup (pages : Nat → Option Page) :
    ∀ (fuel pageNum : Nat) (acc : List (String × String)),
      (acc.map Prod.fst).Nodup →
      ((crawlGo pages fuel pageNum acc).1.map Prod.fst).Nodup := by
  intro fuel
  induction fuel with
  | zero => intro pageNum acc h; simpa [crawlGo] using h
  | succ f ih =>
    intro pageNum acc h
    cases hpg : pages pageNum with
    | none => simp only [crawlGo, hpg]; exact h
    | some pg =>
      by_cases hflag : (addLinksF acc pg.links).2 = false
      · simp only [crawlGo, hpg, hflag, if_pos rfl]
        exact addLinksF_nodup h pg.links
      · by_cases hnext : pg.hasNext = false
        · simp only [crawlGo, hpg, if_neg hflag, hnext, if_pos rfl]
          exact addLinksF_nodup h pg.links
        · simp only [crawlGo, hpg, if_neg hflag, if_neg hnext]
          exact ih (pageNum + 1) _ (addLinksF_nodup h pg.links)

/-- C3: a crawl never collects two links with the same filename — the
returned list has pairwise-distinct filenames — and each loop iteration
preserves the accumulator invariant: processing a page keeps the
already-collected links as a prefix (discovery order) and appends
exactly the first occurrences of filenames not yet collected, so
distinctness of filenames is preserved. -/
theorem c3_crawl_dedup_invariant (pages : Nat → Option Page) (maxPages : Nat)
    (acc ls : List (String × String)) (h : (acc.map Prod.fst).Nodup) :
    ((get_document_links pages maxPages).map Prod.fst).Nodup ∧
    (addLinksF acc ls).1 = acc ++ firstNews (acc.map Prod.fst) ls ∧
    ((addLinksF acc ls).1.map Prod.fst).Nodup ∧
    acc <+: (addLinksF acc ls).1 := by
  refine ⟨crawlGo_nodup pages maxPages 0 [] (by simp), addLinksF_fst ls acc,
    addLinksF_nodup h ls, ?_⟩
  rw [addLinksF_fst]
  exact List.prefix_append _ _

/-- Witness for C3 at a concrete crawl and a concrete loop step. -/
theorem c3_crawl_dedup_invariant_witness :
    ((get_document_links sitW 5).map Prod.fst).Nodup ∧
    (addLinksF accW lsW).1 = accW ++ firstNews (accW.map Prod.fst) lsW ∧
    ((addLinksF accW lsW).1.map Prod.fst).Nodup ∧
    accW <+: (addLinksF accW lsW).1 :=
  c3_crawl_dedup_invariant sitW 5 accW lsW (by decide)

/-- C4: when the crawl reaches a page (with any remaining page budget)
and that fetched page contributes zero new links, the crawl fetches
exactly that page and no later one — regardless of whether the page has
a Next control — and returns the accumulator unchanged. -/
theorem c4_zero_new_links_stops (pages : Nat → Option Page)
    (fuel pageNum : Nat) (acc : List (String × String)) (pg : Page)
    (hp : pages pageNum = some pg)
    (hz : (addLinksF acc pg.links).2 = false) :
    (crawlGo pages (fuel + 1) pageNum acc).2 = [pageNum] ∧
    (addLinksF acc pg.links).1 = acc ∧
    (crawlGo pages (fuel + 1) pageNum acc).1 = acc := by
  have hacc := addLinksF_flag_false pg.links acc hz
  simp only [crawlGo, hp, hz, if_pos rfl]
  exact ⟨rfl, hacc, hacc⟩

/-- Witness for C4: page index 1 of the concrete site repeats an
already-collected link and has a Next control, and the crawl stops
there. -/
theorem c4_zero_new_links_stops_witness :
    (crawlGo sitW 5 1 accW2).2 = [1] ∧
    (addLinksF accW2 pageW2.links).1 = accW2 ∧
    (crawlGo sitW 5 1 accW2).1 = accW2 :=
  c4_zero_new_links_stops sitW 4 1 accW2 pageW2 (by decide) (by decide)

/-- C10: a zero limit is falsy in Python, so `get_remote_bulletins 0`
takes neither the reduced-page-cap branch nor the prefix truncation and
returns the full discovered list, and `check_for_new_bulletins` with
limit 0 compares the local set against that full list. -/
theorem c10_zero_limit_full_list (pages : Nat → Option Page) (maxPages : Nat)
    (localB : List String) :
    get_remote_bulletins pages maxPages (some 0) =
      get_document_links pages maxPages ∧
    (check_for_new_bulletins pages maxPages localB (some 0)).new_bulletins =
      (get_document_links pages maxPages).filter
        (fun p => !localB.contains p.1) ∧
    (check_for_new_bulletins pages maxPages localB (some 0)).total_remote_checked =
      (get_document_links pages maxPages).length := by
  have ht : pyTruthy (some 0) = false := by decide
  have h1 : get_remote_bulletins pages maxPages (some 0) =
      get_document_links pages maxPages := by
    simp [get_remote_bulletins, ht]
  refine ⟨h1, ?_, ?_⟩ <;> simp [check_for_new_bulletins, h1]

/-! ## Lemmas about cleanup -/

theorem deleteLoop_eq_filter (df : String → Bool) :
    ∀ (invalid : List String) (files : List (String × List Nat)),
      deleteLoop df invalid files =
        files.filter (fun p => !(decide (p.1 ∈ invalid) && !df p.1)) := by
  intro invalid
  induction invalid with
  | nil =>
    intro files
    simp [deleteLoop]
  | cons n ns ih =>
    intro files
    show deleteLoop df ns (if df n then files else files.filter (fun p => p.1 ≠ n)) = _
    by_cases hdf : df n
    · rw [if_pos hdf, ih]
      apply List.filter_congr
      intro p _
      by_cases hpn : p.1 = n
      · simp [hpn, hdf, List.mem_cons]
      · simp [List.mem_cons, hpn]
    · rw [if_neg hdf, ih, List.filter_filter]
      apply List.filter_congr
      intro p _
      by_cases hpn : p.1 = n
      · simp [hpn, hdf]
      · simp [List.mem_cons, hpn]

/-- C8 (amended): a dry run deletes nothing and reports the invalid-file
list; a real run attempts to delete every invalid file — a file whose
deletion raises stays, every other invalid file is removed, so one
failure does not abort the rest — but the returned list is the whole
invalid-file list (the attempted set), not only the files actually
deleted. -/
theorem c8_cleanup_behaviour (files : List (String × List Nat))
    (df : String → Bool) :
    cleanup_invalid_files files df true = (invalidNames files, files) ∧
    (cleanup_invalid_files files df false).1 = invalidNames files ∧
    (cleanup_invalid_files files df false).2 =
      files.filter (fun p => !(decide (p.1 ∈ invalidNames files) && !df p.1)) := by
  refine ⟨rfl, rfl, ?_⟩
  show deleteLoop df (invalidNames files) files = _
  exact deleteLoop_eq_filter df (invalidNames files) files

/-- Counterexample to C8 as stated: with one invalid stored file whose
deletion raises, the function returns that filename even though nothing
was deleted (the file is still present), so the returned list is not
the set of files actually deleted. -/
theorem c8_cleanup_counterexample :
    (cleanup_invalid_files filesW dfW false).1 = ["a.pdf"] ∧
    (cleanup_invalid_files filesW dfW false).2 = filesW ∧
    "a.pdf" ∈ ((cleanup_invalid_files filesW dfW false).2.map Prod.fst) := by
  decide

/-! ## Lemmas about rendered sizes (C9) -/

theorem natDigitsGo_lt_ten :
    ∀ (fuel n d : Nat), d ∈ natDigitsGo fuel n → d < 10 := by
  intro fuel
  induction fuel with
  | zero => intro n d h; simp [natDigitsGo] at h
  | succ f ih =>
    intro n d h
    by_cases hn : n < 10
    · simp [natDigitsGo, hn] at h
      omega
    · simp only [natDigitsGo, if_neg hn, List.mem_append] at h
      rcases h with h | h
      · exact ih _ _ h
      · simp at h
        omega

theorem natDigitsGo_small (fuel n : Nat) (hf : 0 < fuel) (hn : n < 10) :
    natDigitsGo fuel n = [n] := by
  cases fuel with
  | zero => omega
  | succ f => simp [natDigitsGo, hn]

theorem digitChar_ne_dot {d : Nat} (hd : d < 10) : digitChar d ≠ '.' := by
  interval_cases d <;> decide

theorem natStr_no_dot (n : Nat) : ∀ c ∈ (natDigits n).map digitChar, c ≠ '.' := by
  intro c hc
  rcases List.mem_map.mp hc with ⟨d, hd, hde⟩
  exact hde ▸ digitChar_ne_dot (natDigitsGo_lt_ten _ _ _ hd)

theorem fracLen_no_dot : ∀ xs : List Char, (∀ c ∈ xs, c ≠ '.') → fracLen xs = 0 := by
  intro xs
  induction xs with
  | nil => intro _; rfl
  | cons c cs ih =>
    intro h
    simp only [fracLen, if_neg (h c (List.mem_cons_self _ _))]
    exact ih (fun x hx => h x (List.mem_cons_of_mem _ hx))

theorem fracLen_append_dot :
    ∀ (xs ys : List Char), (∀ c ∈ xs, c ≠ '.') →
      fracLen (xs ++ '.' :: ys) = ys.length := by
  intro xs
  induction xs with
  | nil => intro ys _; simp [fracLen]
  | cons c cs ih =>
    intro ys h
    simp only [List.cons_append, fracLen, if_neg (h c (List.mem_cons_self _ _))]
    exact ih ys (fun x hx => h x (List.mem_cons_of_mem _ hx))

theorem fracChars_spec (r : Nat) (hr : r < 100) :
    (fracChars r).length ≤ 2 ∧ ∀ c ∈ fracChars r, c ≠ '.' := by
  have hsmall : ∀ m : Nat, m < 10 → natDigits m = [m] := fun m hm =>
    natDigitsGo_small (m + 1) m (by omega) hm
  by_cases h0 : r = 0
  · subst h0
    exact ⟨by decide, by decide⟩
  by_cases h10 : r % 10 = 0
  · have hq : r / 10 < 10 := by omega
    have he : fracChars r = [digitChar (r / 10)] := by
      simp [fracChars, h0, h10, hsmall _ hq]
    rw [he]
    refine ⟨by simp, ?_⟩
    intro c hc
    simp only [List.mem_singleton] at hc
    exact hc ▸ digitChar_ne_dot hq
  by_cases hlt : r < 10
  · have he : fracChars r = ['0', digitChar r] := by
      simp [fracChars, h0, h10, hlt, hsmall _ hlt]
    rw [he]
    refine ⟨by simp, ?_⟩
    intro c hc
    rcases List.mem_cons.mp hc with h | h
    · subst h; decide
    · simp only [List.mem_singleton] at h
      exact h ▸ digitChar_ne_dot hlt
  · have hq : r / 10 < 10 := by omega
    have hd2 : natDigits r = [r / 10, r % 10] := by
      show natDigitsGo (r + 1) r = _
      simp only [natDigitsGo, if_neg hlt,
        natDigitsGo_small r (r / 10) (by omega) hq]
      rfl
    have he : fracChars r = [digitChar (r / 10), digitChar (r % 10)] := by
      simp [fracChars, h0, h10, hlt, hd2]
    rw [he]
    refine ⟨by simp, ?_⟩
    intro c hc
    rcases List.mem_cons.mp hc with h | h
    · exact h ▸ digitChar_ne_dot hq
    · simp only [List.mem_singleton] at h
      exact h ▸ digitChar_ne_dot (by omega)

theorem fracLen_floatStr (k : Int) : fracLen (floatStr k).data ≤ 2 := by
  have hr : k.natAbs % 100 < 100 := Nat.mod_lt _ (by norm_num)
  obtain ⟨hlen, hnd⟩ := fracChars_spec _ hr
  have hdata : (floatStr k).data =
      ((if k < 0 then "-" else "").data ++ (natStr (k.natAbs / 100)).data)
        ++ ('.' :: fracChars (k.natAbs % 100)) := by
    simp only [floatStr, String.data_append, List.append_assoc]
    rfl
  rw [hdata, fracLen_append_dot]
  · exact hlen
  · intro c hc
    rcases List.mem_append.mp hc with h | h
    · by_cases hk : k < 0 <;> simp [hk] at h
      subst h; decide
    · exact natStr_no_dot _ _ h

theorem fracLen_intStr (n : Int) : fracLen (intStr n).data = 0 := by
  apply fracLen_no_dot
  intro c hc
  simp only [intStr, String.data_append] at hc
  rcases List.mem_append.mp hc with h | h
  · by_cases hk : n < 0 <;> simp [hk] at h
    subst h; decide
  · exact natStr_no_dot _ _ h

/-- C9 (amended): every outcome `download_bulletin` produces has a
status among the ledger status tokens, a timestamp that is the current
ISO timestamp or the literal "existing", and a size value that is a
multiple of 0.01 (an int or a two-decimal rounding) whose rendered cell
shows at most two — possibly fewer — fractional digits. -/
theorem c9_row_format (env : DlEnv) :
    (download_bulletin env).1.status ∈ ["downloaded", "skipped", "failed", "existing"] ∧
    ((download_bulletin env).1.download_timestamp = env.now ∨
      (download_bulletin env).1.download_timestamp = "existing") ∧
    (100 * sizeValQ (download_bulletin env).1.file_size_mb).den = 1 ∧
    fracLen ((renderOutcome (download_bulletin env).1).file_size_mb).data ≤ 2 := by
  have hden : ∀ v : SizeVal, (100 * sizeValQ v).den = 1 := by
    intro v
    cases v with
    | intVal n =>
      have : (100 : ℚ) * (n : ℚ) = ((100 * n : Int) : ℚ) := by push_cast; ring
      rw [sizeValQ, this]
      exact Rat.den_intCast _
    | floatHundredths k =>
      have : (100 : ℚ) * ((k : ℚ) / 100) = ((k : Int) : ℚ) := by field_simp
      rw [sizeValQ, this]
      exact Rat.den_intCast _
  have hfrac : ∀ v : SizeVal, fracLen (renderSize v).data ≤ 2 := by
    intro v
    cases v with
    | intVal n => rw [renderSize, fracLen_intStr]; omega
    | floatHundredths k => exact fracLen_floatStr k
  rcases hex : env.existing with _ | content
  · rcases hfe : env.fetch with _ | chunks
    · simp only [download_bulletin, hex, hfe]
      exact ⟨by simp, by simp, hden _, hfrac _⟩
    · rcases hwc : writeChunks chunks env.writeFailsAt with e | content
      · simp only [download_bulletin, hex, hfe, hwc]
        exact ⟨by simp, by simp, hden _, hfrac _⟩
      · simp only [download_bulletin, hex, hfe, hwc, process_document]
        exact ⟨by simp, by simp, hden _, hfrac _⟩
  · simp only [download_bulletin, hex]
    exact ⟨by simp, by simp, hden _, hfrac _⟩

/-- Counterexample to C9 as stated: the ledger cell written for a failed
download is the rendering of the Python int 0, which is "0" — zero
fractional digits, not a fixed two-decimal rendering. -/
theorem c9_row_format_counterexample :
    (renderOutcome (download_bulletin envFailW).1).file_size_mb = "0" ∧
    fracLen ((renderOutcome (download_bulletin envFailW).1).file_size_mb).data ≠ 2 := by
  decide

/-! ## Lemmas about `download_bulletin` -/

theorem writeChunksGo_error (i : Nat) :
    ∀ (cs : List (List Nat)) (idx : Nat), idx ≤ i → i < idx + cs.length →
      writeChunksGo (some i) cs idx = .error () := by
  intro cs
  induction cs with
  | nil => intro idx h1 h2; simp at h2; omega
  | cons c cs ih =>
    intro idx h1 h2
    by_cases hii : i = idx
    · simp [writeChunksGo, hii]
    · have : ¬ (some i = some idx) := by simpa using hii
      simp only [writeChunksGo, if_neg this]
      rw [ih (idx + 1) (by omega) (by simp at h2 ⊢; omega)]
      rfl

/-- C6: `download_bulletin` is a total function on its environment (the
source catches every exception it can raise): when the fetch fails it
returns a `failed` outcome with size 0 and the current timestamp,
leaving no file; when a chunk write raises it deletes the partly written file
(the target path holds nothing afterwards) and returns a `failed`
outcome; and in a batch, replacing the environment of one download
changes no other download's result. -/
theorem c6_download_failure_handling (env : DlEnv) :
    (env.existing = none → env.fetch = none →
      download_bulletin env =
        ({ file_name := env.bulletinName, file_size_mb := .intVal 0,
           download_timestamp := env.now, status := "failed" }, none)) ∧
    (∀ (chunks : List (List Nat)) (i : Nat), env.existing = none →
      env.fetch = some chunks → env.writeFailsAt = some i →
      i < chunks.length →
      (download_bulletin env).1.status = "failed" ∧
      (download_bulletin env).2 = none) ∧
    (∀ (envs : List DlEnv) (i : Nat) (e' : DlEnv) (j : Nat), j ≠ i →
      (downloadBatch (envs.set i e'))[j]? = (downloadBatch envs)[j]?) := by
  refine ⟨?_, ?_, ?_⟩
  · intro h1 h2
    simp [download_bulletin, h1, h2]
  · intro chunks i h1 h2 h3 h4
    have herr : writeChunks chunks env.writeFailsAt = .error () := by
      rw [h3]
      exact writeChunksGo_error i chunks 0 (Nat.zero_le i) (by omega)
    simp [download_bulletin, h1, h2, herr]
  · intro envs i e' j hij
    simp only [downloadBatch, List.map_set]
    rw [List.getElem?_set_ne (fun h => hij h.symm)]

/-- Witness for C6: a concrete failed fetch and a concrete failed chunk
write. -/
theorem c6_download_failure_handling_witness :
    download_bulletin envFailW =
      ({ file_name := "irb2020-01.pdf", file_size_mb := .intVal 0,
         download_timestamp := "2026-01-01T00:00:00", status := "failed" }, none) ∧
    (download_bulletin envWriteW).1.status = "failed" ∧
    (download_bulletin envWriteW).2 = none := by
  refine ⟨?_, ?_⟩
  · exact (c6_download_failure_handling envFailW).1 rfl rfl
  · exact (c6_download_failure_handling envWriteW).2.1 [[1, 2], [3]] 1 rfl rfl rfl
      (by decide)

/-! ## Lemmas about the ledger -/

theorem alookup_upsert (m : List (String × Row)) (k : String) (v : Row)
    (k' : String) :
    alookup (upsert m k v) k' = if k = k' then some v else alookup m k' := by
  induction m with
  | nil => simp [upsert, alookup]
  | cons p m ih =>
    by_cases hpk : p.1 = k
    · rw [upsert, if_pos hpk]
      by_cases hkk : k = k'
      · simp [alookup, hkk]
      · have hpk' : ¬ p.1 = k' := fun h => hkk (hpk.symm.trans h)
        simp [alookup, hkk, hpk']
    · rw [upsert, if_neg hpk]
      by_cases hpk' : p.1 = k'
      · have hkk : ¬ k = k' := fun h => hpk (h ▸ hpk')
        simp [alookup, hpk', hkk]
      · simp [alookup, hpk', ih]

theorem mem_keys_upsert (m : List (String × Row)) (k : String) (v : Row)
    (k' : String) :
    k' ∈ (upsert m k v).map Prod.fst ↔ k' = k ∨ k' ∈ m.map Prod.fst := by
  induction m with
  | nil => simp [upsert]
  | cons p m ih =>
    by_cases hpk : p.1 = k
    · rw [upsert, if_pos hpk]
      simp only [List.map_cons, List.mem_cons, hpk]
      tauto
    · rw [upsert, if_neg hpk]
      simp only [List.map_cons, List.mem_cons, ih]
      tauto

theorem nodup_keys_upsert (m : List (String × Row)) (k : String) (v : Row)
    (h : (m.map Prod.fst).Nodup) : ((upsert m k v).map Prod.fst).Nodup := by
  induction m with
  | nil => simp [upsert]
  | cons p m ih =>
    rw [List.map_cons, List.nodup_cons] at h
    obtain ⟨hp, hm⟩ := h
    by_cases hpk : p.1 = k
    · rw [upsert, if_pos hpk, List.map_cons, List.nodup_cons]
      exact ⟨hpk ▸ hp, hm⟩
    · rw [upsert, if_neg hpk, List.map_cons, List.nodup_cons]
      refine ⟨?_, ih hm⟩
      rw [mem_keys_upsert]
      rintro (h | h)
      · exact hpk h
      · exact hp h

theorem alookup_foldl_upsert {α : Type} (f : α → String) (g : α → Row) :
    ∀ (xs : List α) (m : List (String × Row)) (k : String),
      alookup (xs.foldl (fun m x => upsert m (f x) (g x)) m) k =
        xs.foldl (fun a x => if f x = k then some (g x) else a) (alookup m k) := by
  intro xs
  induction xs with
  | nil => intro m k; rfl
  | cons x xs ih =>
    intro m k
    show alookup (xs.foldl _ (upsert m (f x) (g x))) k = _
    rw [ih, alookup_upsert, List.foldl_cons]

theorem foldl_step_of_forall_ne {α : Type} (f : α → String) (g : α → Row)
    (k : String) :
    ∀ (xs : List α), (∀ x ∈ xs, f x ≠ k) → ∀ a : Option Row,
      xs.foldl (fun a x => if f x = k then some (g x) else a) a = a := by
  intro xs
  induction xs with
  | nil => intro _ a; rfl
  | cons x xs ih =>
    intro h a
    have hx : f x ≠ k := h x (List.mem_cons_self _ _)
    show xs.foldl _ (if f x = k then some (g x) else a) = a
    rw [if_neg hx]
    exact ih (fun y hy => h y (List.mem_cons_of_mem _ hy)) a

theorem foldl_step_indep {α : Type} (f : α → String) (g : α → Row) (k : String) :
    ∀ (xs : List α), (∃ x ∈ xs, f x = k) → ∀ a b : Option Row,
      xs.foldl (fun a x => if f x = k then some (g x) else a) a =
        xs.foldl (fun a x => if f x = k then some (g x) else a) b := by
  intro xs
  induction xs with
  | nil => intro hex; simp at hex
  | cons x xs ih =>
    intro hex a b
    by_cases hx : f x = k
    · show xs.foldl _ (if f x = k then some (g x) else a) =
        xs.foldl _ (if f x = k then some (g x) else b)
      rw [if_pos hx, if_pos hx]
    · have hex' : ∃ y ∈ xs, f y = k := by
        rcases hex with ⟨y, hy, hyk⟩
        rcases List.mem_cons.mp hy with h | h
        · exact absurd (h ▸ hyk) hx
        · exact ⟨y, h, hyk⟩
      show xs.foldl _ (if f x = k then some (g x) else a) =
        xs.foldl _ (if f x = k then some (g x) else b)
      rw [if_neg hx, if_neg hx]
      exact ih hex' a b

theorem foldl_step_some_ne_none {α : Type} (f : α → String) (g : α → Row)
    (k : String) :
    ∀ (xs : List α) (v : Row),
      xs.foldl (fun a x => if f x = k then some (g x) else a) (some v) ≠ none := by
  intro xs
  induction xs with
  | nil => intro v h; exact Option.noConfusion h
  | cons x xs ih =>
    intro v h
    by_cases hx : f x = k
    · rw [List.foldl_cons, if_pos hx] at h
      exact ih _ h
    · rw [List.foldl_cons, if_neg hx] at h
      exact ih _ h

theorem foldl_step_none_iff {α : Type} (f : α → String) (g : α → Row)
    (k : String) :
    ∀ (xs : List α),
      xs.foldl (fun a x => if f x = k then some (g x) else a) none = none ↔
        ∀ x ∈ xs, f x ≠ k := by
  intro xs
  induction xs with
  | nil => simp
  | cons x xs ih =>
    by_cases hx : f x = k
    · constructor
      · intro h
        rw [List.foldl_cons, if_pos hx] at h
        exact absurd h (foldl_step_some_ne_none f g k xs (g x))
      · intro h
        exact absurd hx (h x (List.mem_cons_self _ _))
    · rw [List.foldl_cons, if_neg hx, ih]
      constructor
      · intro h y hy
        rcases List.mem_cons.mp hy with h1 | h1
        · exact h1 ▸ hx
        · exact h y h1
      · intro h y hy
        exact h y (List.mem_cons_of_mem _ hy)

theorem mem_keys_foldl_upsert {α : Type} (f : α → String) (g : α → Row) :
    ∀ (xs : List α) (m : List (String × Row)) (k : String),
      (k ∈ (xs.foldl (fun m x => upsert m (f x) (g x)) m).map Prod.fst ↔
        k ∈ m.map Prod.fst ∨ k ∈ xs.map f) := by
  intro xs
  induction xs with
  | nil => intro m k; simp
  | cons x xs ih =>
    intro m k
    show k ∈ (xs.foldl _ (upsert m (f x) (g x))).map Prod.fst ↔ _
    rw [ih, mem_keys_upsert]
    simp only [List.map_cons, List.mem_cons]
    tauto

theorem nodup_keys_foldl_upsert {α : Type} (f : α → String) (g : α → Row) :
    ∀ (xs : List α) (m : List (String × Row)), (m.map Prod.fst).Nodup →
      ((xs.foldl (fun m x => upsert m (f x) (g x)) m).map Prod.fst).Nodup := by
  intro xs
  induction xs with
  | nil => intro m h; exact h
  | cons x xs ih =>
    intro m h
    exact ih _ (nodup_keys_upsert m (f x) (g x) h)

theorem alookup_eq_none (m : List (String × Row)) (k : String) :
    alookup m k = none ↔ k ∉ m.map Prod.fst := by
  induction m with
  | nil => simp [alookup]
  | cons p m ih =>
    by_cases hpk : p.1 = k
    · simp [alookup, hpk]
    · rw [alookup, if_neg hpk, ih, List.map_cons, List.mem_cons]
      constructor
      · rintro h (h1 | h2)
        · exact hpk h1.symm
        · exact h h2
      · intro h hm
        exact h (Or.inr hm)

theorem alookup_isSome_of_mem_keys (m : List (String × Row)) (k : String)
    (h : k ∈ m.map Prod.fst) : ∃ v, alookup m k = some v := by
  cases hc : alookup m k with
  | none => exact absurd ((alookup_eq_none m k).mp hc) (fun hn => hn h)
  | some v => exact ⟨v, rfl⟩

theorem rowKeyed_upsert :
    ∀ (m : List (String × Row)) (k : String) (v : Row),
      rowKeyed m → v.file_name = k → rowKeyed (upsert m k v) := by
  intro m
  induction m with
  | nil =>
    intro k v _ hv p hp
    simp only [upsert, List.mem_singleton] at hp
    subst hp
    exact hv
  | cons q m ih =>
    intro k v h hv p hp
    by_cases hqk : q.1 = k
    · rw [upsert, if_pos hqk] at hp
      rcases List.mem_cons.mp hp with h1 | h1
      · subst h1; exact hv
      · exact h p (List.mem_cons_of_mem _ h1)
    · rw [upsert, if_neg hqk] at hp
      rcases List.mem_cons.mp hp with h1 | h1
      · rw [h1]; exact h q (List.mem_cons_self _ _)
      · exact ih k v (fun r hr => h r (List.mem_cons_of_mem _ hr)) hv p h1

theorem rowKeyed_foldl {α : Type} (f : α → String) (g : α → Row)
    (hg : ∀ x, (g x).file_name = f x) :
    ∀ (xs : List α) (m : List (String × Row)), rowKeyed m →
      rowKeyed (xs.foldl (fun m x => upsert m (f x) (g x)) m) := by
  intro xs
  induction xs with
  | nil => intro m h; exact h
  | cons x xs ih =>
    intro m h
    exact ih _ (rowKeyed_upsert m (f x) (g x) h (hg x))

theorem alookup_rowKeyed :
    ∀ (m : List (String × Row)), rowKeyed m →
      ∀ (k : String) (v : Row), alookup m k = some v → v.file_name = k := by
  intro m
  induction m with
  | nil => intro _ k v h; exact Option.noConfusion h
  | cons p m ih =>
    intro hkv k v h
    by_cases hpk : p.1 = k
    · rw [alookup, if_pos hpk] at h
      cases Option.some_inj.mp h
      exact (hkv p (List.mem_cons_self _ _)).trans hpk
    · rw [alookup, if_neg hpk] at h
      exact ih (fun q hq => hkv q (List.mem_cons_of_mem _ hq)) k v h

theorem foldl_last_over_map (F : String → Row) (k : String) :
    ∀ (ks : List String), (∀ x ∈ ks, (F x).file_name = x) → ks.Nodup →
      ∀ a : Option Row,
        (ks.map F).foldl (fun a r => if r.file_name = k then some r else a) a =
          if k ∈ ks then some (F k) else a := by
  intro ks
  induction ks with
  | nil => intro _ _ a; simp
  | cons x ks ih =>
    intro hF hnd a
    rw [List.map_cons, List.foldl_cons]
    obtain ⟨hxmem, hnd'⟩ := List.nodup_cons.mp hnd
    have hx : (F x).file_name = x := hF x (List.mem_cons_self _ _)
    have hF' : ∀ y ∈ ks, (F y).file_name = y :=
      fun y hy => hF y (List.mem_cons_of_mem _ hy)
    by_cases hxk : x = k
    · subst hxk
      rw [if_pos hx, ih hF' hnd' _, if_neg hxmem,
        if_pos (List.mem_cons_self _ _)]
    · have hne : ¬ (F x).file_name = k := by
        rw [hx]; exact hxk
      rw [if_neg hne, ih hF' hnd' a]
      by_cases hk : k ∈ ks
      · rw [if_pos hk, if_pos (List.mem_cons_of_mem _ hk)]
      · rw [if_neg hk, if_neg (by
          intro h
          rcases List.mem_cons.mp h with h1 | h1
          · exact hxk h1.symm
          · exact hk h1)]

/-! Specializations to the ledger functions. -/

theorem alookup_get_existing (rows : List Row) (k : String) :
    alookup (get_existing_files (some rows)) k =
      rows.foldl (fun a r => if r.file_name = k then some r else a) none := by
  have h := alookup_foldl_upsert (fun r : Row => r.file_name) (fun r => r)
    rows [] k
  simpa [get_existing_files, alookup] using h

theorem alookup_mergeOutcomes (m : List (String × Row)) (results : List Outcome)
    (k : String) :
    alookup (mergeOutcomes m results) k =
      results.foldl
        (fun a r => if r.file_name = k then some (renderOutcome r) else a)
        (alookup m k) := by
  have h := alookup_foldl_upsert (fun r : Outcome => r.file_name)
    (fun r => renderOutcome r) results m k
  simpa [mergeOutcomes] using h

theorem nodup_keys_get_existing (file : Option (List Row)) :
    ((get_existing_files file).map Prod.fst).Nodup := by
  cases file with
  | none => simp [get_existing_files]
  | some rows =>
    exact nodup_keys_foldl_upsert (fun r : Row => r.file_name) (fun r => r)
      rows [] (by simp)

theorem nodup_keys_merge (file : Option (List Row)) (results : List Outcome) :
    ((mergeOutcomes (get_existing_files file) results).map Prod.fst).Nodup :=
  nodup_keys_foldl_upsert (fun r : Outcome => r.file_name)
    (fun r => renderOutcome r) results _ (nodup_keys_get_existing file)

theorem rowKeyed_get_existing (file : Option (List Row)) :
    rowKeyed (get_existing_files file) := by
  cases file with
  | none => intro p hp; exact absurd hp (List.not_mem_nil p)
  | some rows =>
    exact rowKeyed_foldl (fun r : Row => r.file_name) (fun r => r)
      (fun _ => rfl) rows [] (fun p hp => absurd hp (List.not_mem_nil p))

theorem rowKeyed_merge (file : Option (List Row)) (results : List Outcome) :
    rowKeyed (mergeOutcomes (get_existing_files file) results) :=
  rowKeyed_foldl (fun r : Outcome => r.file_name) (fun r => renderOutcome r)
    (fun _ => rfl) results _ (rowKeyed_get_existing file)

theorem create_rows_eq (file : Option (List Row)) (results : List Outcome) :
    (create_csv_summary file results).rows =
      (sortedKeys (mergeOutcomes (get_existing_files file) results)).map
        (fun k =>
          (alookup (mergeOutcomes (get_existing_files file) results) k).getD
            default) := rfl

theorem alookup_merged_spec (file : Option (List Row)) (results : List Outcome)
    (k : String) :
    alookup (mergeOutcomes (get_existing_files file) results) k =
      mergedSpec file results k := by
  rw [alookup_mergeOutcomes]
  unfold mergedSpec lastOutcomeRow
  cases hlast : results.foldl
      (fun a r => if r.file_name = k then some (renderOutcome r) else a)
      none with
  | none =>
    have hall : ∀ r ∈ results, r.file_name ≠ k :=
      (foldl_step_none_iff _ _ _ results).mp hlast
    exact foldl_step_of_forall_ne _ _ _ results hall _
  | some v =>
    have hex : ∃ r ∈ results, r.file_name = k := by
      by_contra hc
      push_neg at hc
      rw [(foldl_step_none_iff (fun r : Outcome => r.file_name)
        (fun r => renderOutcome r) k results).mpr hc] at hlast
      exact Option.noConfusion hlast
    rw [foldl_step_indep _ _ _ results hex _ none, hlast]

theorem sortedKeys_merge_nodup (file : Option (List Row))
    (results : List Outcome) :
    (sortedKeys (mergeOutcomes (get_existing_files file) results)).Nodup :=
  ((List.perm_insertionSort _ _).nodup_iff).mpr (nodup_keys_merge file results)

theorem sortedKeys_keyed (file : Option (List Row)) (results : List Outcome) :
    ∀ x ∈ sortedKeys (mergeOutcomes (get_existing_files file) results),
      ((alookup (mergeOutcomes (get_existing_files file) results) x).getD
        default).file_name = x := by
  intro x hx
  have hxk : x ∈ (mergeOutcomes (get_existing_files file) results).map Prod.fst :=
    (List.mem_insertionSort _).mp hx
  obtain ⟨v, hv⟩ := alookup_isSome_of_mem_keys _ _ hxk
  rw [hv, Option.getD_some]
  exact alookup_rowKeyed _ (rowKeyed_merge file results) x v hv

theorem alookup_reload (file : Option (List Row)) (results : List Outcome)
    (k : String) :
    alookup (get_existing_files (some (create_csv_summary file results).rows)) k
      = alookup (mergeOutcomes (get_existing_files file) results) k := by
  rw [create_rows_eq, alookup_get_existing,
    foldl_last_over_map _ k _ (sortedKeys_keyed file results)
      (sortedKeys_merge_nodup file results) none]
  by_cases hk : k ∈ sortedKeys (mergeOutcomes (get_existing_files file) results)
  · rw [if_pos hk]
    obtain ⟨v, hv⟩ := alookup_isSome_of_mem_keys _ _
      ((List.mem_insertionSort _).mp hk)
    rw [hv, Option.getD_some]
  · rw [if_neg hk]
    exact ((alookup_eq_none _ _).mpr
      (fun hc => hk ((List.mem_insertionSort _).mpr hc))).symm

theorem rows_fileNames (file : Option (List Row)) (results : List Outcome) :
    (create_csv_summary file results).rows.map Row.file_name =
      sortedKeys (mergeOutcomes (get_existing_files file) results) := by
  rw [create_rows_eq, List.map_map]
  conv_rhs =>
    rw [← List.map_id
      (sortedKeys (mergeOutcomes (get_existing_files file) results))]
  apply List.map_congr_left
  intro x hx
  exact sortedKeys_keyed file results x hx

theorem foldl_step_idem {α : Type} (f : α → String) (g : α → Row) (k : String)
    (xs : List α) (a : Option Row) :
    xs.foldl (fun a x => if f x = k then some (g x) else a)
      (xs.foldl (fun a x => if f x = k then some (g x) else a) a) =
      xs.foldl (fun a x => if f x = k then some (g x) else a) a := by
  by_cases hex : ∃ x ∈ xs, f x = k
  · exact foldl_step_indep f g k xs hex _ _
  · push_neg at hex
    simp only [foldl_step_of_forall_ne f g k xs hex]

/-- C1: the persisted table written by `create_csv_summary` carries the
fixed header, its rows are sorted ascending by filename with
pairwise-distinct filenames, and reloading it yields exactly the prior
persisted mapping overwritten/extended by one entry per filename of the
new outcomes (the last outcome for a filename winning) — one entry per
distinct filename. -/
theorem c1_ledger_save_merge (file : Option (List Row))
    (results : List Outcome) :
    (create_csv_summary file results).header = CSV_FIELDNAMES ∧
    List.Sorted (fun a b : String => a ≤ b)
      ((create_csv_summary file results).rows.map Row.file_name) ∧
    ((create_csv_summary file results).rows.map Row.file_name).Nodup ∧
    ∀ k,
      alookup (get_existing_files (some (create_csv_summary file results).rows))
        k = mergedSpec file results k := by
  refine ⟨rfl, ?_, ?_, ?_⟩
  · rw [rows_fileNames]
    exact List.sorted_insertionSort _ _
  · rw [rows_fileNames]
    exact sortedKeys_merge_nodup file results
  · intro k
    rw [alookup_reload]
    exact alookup_merged_spec file results k

/-- C7: saving the same outcomes a second time rewrites the same table
byte for byte (same header, same row cells in the same order). -/
theorem c7_save_idempotent (file : Option (List Row)) (results : List Outcome) :
    create_csv_summary (some (create_csv_summary file results).rows) results =
      create_csv_summary file results := by
  have hlook : ∀ k,
      alookup (mergeOutcomes
        (get_existing_files (some (create_csv_summary file results).rows))
        results) k =
      alookup (mergeOutcomes (get_existing_files file) results) k := by
    intro k
    rw [alookup_mergeOutcomes, alookup_reload, alookup_mergeOutcomes]
    exact foldl_step_idem _ _ _ results _
  have hnd2 := nodup_keys_merge (some (create_csv_summary file results).rows)
    results
  have hnd1 := nodup_keys_merge file results
  have hkeys : ∀ x,
      x ∈ (mergeOutcomes
        (get_existing_files (some (create_csv_summary file results).rows))
        results).map Prod.fst ↔
      x ∈ (mergeOutcomes (get_existing_files file) results).map Prod.fst := by
    intro x
    constructor
    · intro hx
      obtain ⟨v, hv⟩ := alookup_isSome_of_mem_keys _ _ hx
      rw [hlook x] at hv
      by_contra hc
      rw [(alookup_eq_none _ _).mpr hc] at hv
      exact Option.noConfusion hv
    · intro hx
      obtain ⟨v, hv⟩ := alookup_isSome_of_mem_keys _ _ hx
      rw [← hlook x] at hv
      by_contra hc
      rw [(alookup_eq_none _ _).mpr hc] at hv
      exact Option.noConfusion hv
  have hperm : List.Perm
      ((mergeOutcomes
        (get_existing_files (some (create_csv_summary file results).rows))
        results).map Prod.fst)
      ((mergeOutcomes (get_existing_files file) results).map Prod.fst) :=
    (List.perm_ext_iff_of_nodup hnd2 hnd1).mpr hkeys
  have hsorteq :
      sortedKeys (mergeOutcomes
        (get_existing_files (some (create_csv_summary file results).rows))
        results) =
      sortedKeys (mergeOutcomes (get_existing_files file) results) := by
    refine List.eq_of_perm_of_sorted ?_ (List.sorted_insertionSort _ _)
      (List.sorted_insertionSort _ _)
    exact ((List.perm_insertionSort _ _).trans hperm).trans
      (List.perm_insertionSort _ _).symm
  have hrows :
      (create_csv_summary (some (create_csv_summary file results).rows)
        results).rows = (create_csv_summary file results).rows := by
    rw [create_rows_eq (some (create_csv_summary file results).rows) results]
    conv_rhs => rw [create_rows_eq file results]
    rw [hsorteq]
    apply List.map_congr_left
    intro x _
    rw [hlook x]
  calc create_csv_summary (some (create_csv_summary file results).rows) results
      = ⟨(create_csv_summary (some (create_csv_summary file results).rows)
            results).header,
         (create_csv_summary (some (create_csv_summary file results).rows)
            results).rows⟩ := rfl
    _ = ⟨(create_csv_summary file results).header,
         (create_csv_summary file results).rows⟩ := by rw [hrows]; rfl
    _ = create_csv_summary file results := rfl

end IRSScraper
